import Mathlib

/-!
Shallow embedding of the OTU clustering program (agc/agc.py).

Sequences and text lines are modelled as lists of characters; the lazy
generators of the program are modelled as the finite lists they produce;
Python exceptions are modelled with an explicit error type threaded through
an Except monad.  The pairwise global alignment primitive is an external
library and is taken as a parameter of the clustering stage.
-/

/-- The Python exceptions that the relevant code paths can raise. -/
inductive PyErr where
  | indexError
  | zeroDivisionError
  | stopIteration
deriving DecidableEq

instance exceptDecidableEq {ε α : Type} [DecidableEq ε] [DecidableEq α] :
    DecidableEq (Except ε α) := fun x y =>
  match x, y with
  | Except.ok a, Except.ok b =>
    if h : a = b then isTrue (by rw [h]) else
      isFalse (fun hc => h (Except.ok.inj hc))
  | Except.error e, Except.error f =>
    if h : e = f then isTrue (by rw [h]) else
      isFalse (fun hc => h (Except.error.inj hc))
  | Except.ok _, Except.error _ => isFalse (fun hc => Except.noConfusion hc)
  | Except.error _, Except.ok _ => isFalse (fun hc => Except.noConfusion hc)

/-- Floor of a rational number, computed from its numerator and denominator. -/
def ratFloor (q : ℚ) : ℤ := Int.fdiv q.num q.den

/-- Models the Python builtin round(x, 2): round half to even, idealized over
exact rationals. -/
def roundHalfEven (q : ℚ) : ℤ :=
  let f := ratFloor q
  let r := q - (f : ℚ)
  if r < 1/2 then f
  else if (1 : ℚ)/2 < r then f + 1
  else if f % 2 = 0 then f else f + 1

/-- Rounding to two decimal places, as round(x, 2) does. -/
def pyRound2 (q : ℚ) : ℚ := ((roundHalfEven (q * 100) : ℤ) : ℚ) / 100

/-- Models the Python str.strip method: remove whitespace from both ends of a
line. -/
def pyStrip (line : List Char) : List Char :=
  ((line.dropWhile Char.isWhitespace).reverse.dropWhile Char.isWhitespace).reverse

/-- The loop of read_fasta: accumulate non-header lines into seq; on a header
line, yield the accumulated seq when it reaches minseqlen and reset it; at end
of stream, yield the accumulated seq unconditionally. -/
def read_fasta_loop (minseqlen : Nat) : List (List Char) → List Char → List (List Char)
  | [], seq => [seq]
  | line :: rest, seq =>
    if line.head? = some '>' then
      (if minseqlen ≤ seq.length then [seq] else []) ++ read_fasta_loop minseqlen rest []
    else
      read_fasta_loop minseqlen rest (seq ++ pyStrip line)

/-- read_fasta of agc.py, over the list of lines of the input file. -/
def read_fasta (lines : List (List Char)) (minseqlen : Nat) : List (List Char) :=
  read_fasta_loop minseqlen lines []

/-- The sequence still accumulated when the end of the stream is reached,
starting from a given partial accumulation. -/
def finalAcc : List (List Char) → List Char → List Char
  | [], seq => seq
  | line :: rest, seq =>
    if line.head? = some '>' then finalAcc rest []
    else finalAcc rest (seq ++ pyStrip line)

/-- The keys of a Python Counter built from a list: the distinct values in
first-occurrence order. -/
def counterKeys : List (List Char) → List (List Char)
  | [] => []
  | s :: rest => s :: (counterKeys rest).filter (fun t => decide (t ≠ s))

/-- The items of a Python Counter built from a list: distinct values in
first-occurrence order, each with its multiplicity. -/
def counterItems (l : List (List Char)) : List (List Char × Nat) :=
  (counterKeys l).map (fun s => (s, l.count s))

/-- The intermediate value Counter(amplicon_sorted).most_common() of
dereplication_fulllength: the reads are sorted in reverse (descending) order,
counted, and the items are stably sorted by descending count.  Stable sorting
is realized by insertion sort, which places each earlier item before later
items of equal count, as the Python sort does. -/
def derep_most_common (lines : List (List Char)) (minseqlen : Nat) : List (List Char × Nat) :=
  List.insertionSort (fun a b : List Char × Nat => b.2 ≤ a.2)
    (counterItems (List.insertionSort (fun a b : List Char => b ≤ a) (read_fasta lines minseqlen)))

/-- dereplication_fulllength of agc.py: the most_common items whose count
reaches mincount, in order. -/
def dereplication_fulllength (lines : List (List Char)) (minseqlen mincount : Nat) :
    List (List Char × Nat) :=
  (derep_most_common lines minseqlen).filter (fun p => decide (mincount ≤ p.2))

/-- One iteration of the comparison generator inside get_identity: fetch the
second aligned sequence, compare the characters at column i, and add one to
the accumulator on equality.  Indexing outside either sequence raises
IndexError, as Python indexing does. -/
def matchStep (alignment_list : List (List Char)) (a0 : List Char) (acc i : Nat) :
    Except PyErr Nat :=
  match alignment_list[1]? with
  | none => Except.error PyErr.indexError
  | some a1 =>
    match a0[i]?, a1[i]? with
    | some c, some d => Except.ok (acc + if c = d then 1 else 0)
    | _, _ => Except.error PyErr.indexError

/-- The body of get_identity once the first aligned sequence has been
fetched: run the matching-column sum over range(len(first)); then divide by
the length of the first aligned sequence, which raises ZeroDivisionError when
that length is zero, and round to two decimal places. -/
def identityFrom (alignment_list : List (List Char)) (a0 : List Char) : Except PyErr ℚ :=
  match (List.range a0.length).foldlM (matchStep alignment_list a0) 0 with
  | Except.error e => Except.error e
  | Except.ok m =>
    if a0.length = 0 then Except.error PyErr.zeroDivisionError
    else Except.ok (pyRound2 (100 * (m : ℚ) / (a0.length : ℚ)))

/-- get_identity of agc.py: index the first aligned sequence, which raises
IndexError on an empty list, then compute the rounded identity rate from the
matching-column count. -/
def get_identity : List (List Char) → Except PyErr ℚ
  | [] => Except.error PyErr.indexError
  | a0 :: rest => identityFrom (a0 :: rest) a0

/-- Identity as the spec words it: 100 times the number of column positions at
which the two aligned sequences hold the same character, divided by the
alignment length, rounded to two decimal places.  Columns are the positions of
the zipped sequences; a naive character equality is used, so two gap
characters in the same column count as identical and a gap against a base
counts as a mismatch. -/
def spec_identity (s1 s2 : List Char) : ℚ :=
  pyRound2 (100 * (((s1.zip s2).countP (fun p => decide (p.1 = p.2))) : ℚ) / (s1.length : ℚ))

/-- The identity computed between a candidate sequence and an OTU
representative: align the two sequences and apply get_identity to the pair of
aligned sequences, exactly as the clustering loop does. -/
def identityWith (align : List Char → List Char → List Char × List Char)
    (rseq oseq : List Char) : Except PyErr ℚ :=
  get_identity [(align rseq oseq).1, (align rseq oseq).2]

/-- The inner loop of abundance_greedy_clustering for one candidate record:
scan the accepted OTUs in order; the first one whose identity reaches 97
makes the candidate non-unique and stops the scan; errors of the identity
computation propagate. -/
def scanOTUs (align : List Char → List Char → List Char × List Char)
    (rseq : List Char) : List (List Char × Nat) → Except PyErr Bool
  | [] => Except.ok true
  | j :: rest =>
    match identityWith align rseq j.1 with
    | Except.error e => Except.error e
    | Except.ok identity =>
      if (97 : ℚ) ≤ identity then Except.ok false
      else scanOTUs align rseq rest

/-- One iteration of the outer loop of abundance_greedy_clustering: the
candidate is appended to the OTU list exactly when the scan found no accepted
OTU of identity at least 97. -/
def processRecord (align : List Char → List Char → List Char × List Char)
    (list_OTU : List (List Char × Nat)) (i : List Char × Nat) :
    Except PyErr (List (List Char × Nat)) :=
  match scanOTUs align i.1 list_OTU with
  | Except.error e => Except.error e
  | Except.ok unique => Except.ok (if unique then list_OTU ++ [i] else list_OTU)

/-- abundance_greedy_clustering of agc.py, parametric in the external global
alignment primitive.  The first dereplicated record seeds the OTU list; on an
empty dereplicated stream the call to next raises StopIteration.  The
chunk_size and kmer_size parameters are accepted and never used, as in the
source. -/
def abundance_greedy_clustering (align : List Char → List Char → List Char × List Char)
    (lines : List (List Char)) (minseqlen mincount chunk_size kmer_size : Nat) :
    Except PyErr (List (List Char × Nat)) :=
  match dereplication_fulllength lines minseqlen mincount with
  | [] => Except.error PyErr.stopIteration
  | r0 :: rest => rest.foldlM (processRecord align) [r0]

/-- An alignment stub used for concrete evaluations: returns the pair as is. -/
def alignAsIs : List Char → List Char → List Char × List Char := fun a b => (a, b)

/-- A concrete input stream used by witnesses: two records of sequence AAAA
and one record of sequence TTTT. -/
def linesABT : List (List Char) :=
  [">a".toList, "AAAA".toList, ">b".toList, "AAAA".toList, ">c".toList, "TTTT".toList]

/-- Rounding a rational that is an integer cast leaves it unchanged. -/
lemma roundHalfEven_intCast (n : ℤ) : roundHalfEven (n : ℚ) = n := by
  unfold roundHalfEven ratFloor
  simp [Rat.num_intCast, Rat.den_intCast, Int.fdiv_one]

/-- When q times 100 is an integer n, pyRound2 q is n over 100. -/
lemma pyRound2_eq_of_mul_eq (q : ℚ) (n : ℤ) (h : q * 100 = (n : ℚ)) :
    pyRound2 q = (n : ℚ) / 100 := by
  rw [pyRound2, h, roundHalfEven_intCast]

/-- Every element the loop of read_fasta emits before the last one has reached
the minimum length, and the last emitted element is exactly the sequence still
accumulated at the end of the stream. -/
lemma read_fasta_loop_spec (minseqlen : Nat) :
    ∀ (lines : List (List Char)) (seq : List Char),
      (∀ s ∈ (read_fasta_loop minseqlen lines seq).dropLast, minseqlen ≤ s.length) ∧
      (read_fasta_loop minseqlen lines seq).getLast? = some (finalAcc lines seq) := by
  intro lines
  induction lines with
  | nil => intro seq; simp [read_fasta_loop, finalAcc]
  | cons line rest ih =>
    intro seq
    by_cases h : line.head? = some '>'
    · have hne : read_fasta_loop minseqlen rest [] ≠ [] := by
        intro hnil
        have := (ih []).2
        rw [hnil] at this
        exact Option.noConfusion this
      constructor
      · intro s hs
        rw [read_fasta_loop, if_pos h,
          List.dropLast_append_of_ne_nil _ hne] at hs
        rcases List.mem_append.1 hs with hs | hs
        · by_cases hlen : minseqlen ≤ seq.length
          · rw [if_pos hlen] at hs
            rcases List.mem_singleton.1 hs with rfl
            exact hlen
          · rw [if_neg hlen] at hs
            exact absurd hs (List.not_mem_nil s)
        · exact (ih []).1 s hs
      · rw [read_fasta_loop, if_pos h, List.getLast?_append, (ih []).2, finalAcc, if_pos h]
        rfl
    · constructor
      · intro s hs
        rw [read_fasta_loop, if_neg h] at hs
        exact (ih (seq ++ pyStrip line)).1 s hs
      · rw [read_fasta_loop, if_neg h, (ih (seq ++ pyStrip line)).2, finalAcc, if_neg h]

/-- When the last line of the stream is a header line, nothing is accumulated
after it, so the final accumulated sequence is empty. -/
lemma finalAcc_last_header :
    ∀ (pre : List (List Char)) (hline : List Char) (seq : List Char),
      hline.head? = some '>' → finalAcc (pre ++ [hline]) seq = [] := by
  intro pre
  induction pre with
  | nil =>
    intro hline seq hh
    simp only [List.nil_append, finalAcc, if_pos hh]
  | cons l pre ih =>
    intro hline seq hh
    rw [List.cons_append, finalAcc]
    by_cases h : l.head? = some '>'
    · rw [if_pos h]; exact ih hline [] hh
    · rw [if_neg h]; exact ih hline (seq ++ pyStrip l) hh

/-- C7: in read_fasta, a previously accumulated sequence flushed at a header
line is yielded only if its length reaches minseqlen, hence every yielded
element except the last has length at least minseqlen; the final accumulated
sequence is always yielded at end of stream, for every minseqlen, even when it
is shorter than minseqlen. -/
theorem C7_read_fasta_flush (lines : List (List Char)) (minseqlen : Nat) :
    (∀ s ∈ (read_fasta lines minseqlen).dropLast, minseqlen ≤ s.length) ∧
    (read_fasta lines minseqlen).getLast? = some (finalAcc lines []) :=
  read_fasta_loop_spec minseqlen lines []

/-- Witness for C7 on a concrete stream: the four-character sequence passes
the threshold four, and the trailing two-character sequence is still yielded
last. -/
theorem C7_read_fasta_flush_witness :
    4 ≤ ("AAAA".toList).length ∧
    (read_fasta [">a".toList, "AAAA".toList, ">b".toList, "ZZ".toList] 4).getLast? =
      some ("ZZ".toList) := by
  constructor
  · exact (C7_read_fasta_flush [">a".toList, "AAAA".toList, ">b".toList, "ZZ".toList] 4).1
      ("AAAA".toList) (by decide)
  · have h := (C7_read_fasta_flush [">a".toList, "AAAA".toList, ">b".toList, "ZZ".toList] 4).2
    rw [show finalAcc [">a".toList, "AAAA".toList, ">b".toList, "ZZ".toList] [] = "ZZ".toList
      from by decide] at h
    exact h

/-- C10: read_fasta yields at least one element for every input and every
minseqlen, because the end-of-stream flush is unconditional; on an input with
no lines at all the sole yielded element is the empty sequence, and whenever
the last line is a header line the final yielded element is the empty
sequence. -/
theorem C10_read_fasta_nonempty (lines : List (List Char)) (minseqlen : Nat) :
    read_fasta lines minseqlen ≠ [] ∧
    read_fasta [] minseqlen = [[]] ∧
    (∀ hline, lines.getLast? = some hline → hline.head? = some '>' →
      (read_fasta lines minseqlen).getLast? = some []) := by
  refine ⟨?_, rfl, ?_⟩
  · intro hnil
    have := (read_fasta_loop_spec minseqlen lines []).2
    rw [show read_fasta_loop minseqlen lines [] = read_fasta lines minseqlen from rfl,
      hnil] at this
    exact Option.noConfusion this
  · intro hline hlast hh
    obtain ⟨pre, rfl⟩ := List.getLast?_eq_some_iff.1 hlast
    have h := (read_fasta_loop_spec minseqlen (pre ++ [hline]) []).2
    rw [finalAcc_last_header pre hline [] hh] at h
    exact h

/-- Witness for C10 on a concrete stream ending in a header line: the result
ends with the empty sequence and in particular is nonempty. -/
theorem C10_read_fasta_nonempty_witness :
    read_fasta [">a".toList] 5 ≠ [] ∧
    (read_fasta [">a".toList] 5).getLast? = some [] :=
  ⟨(C10_read_fasta_nonempty [">a".toList] 5).1,
   (C10_read_fasta_nonempty [">a".toList] 5).2.2 (">a".toList) (by decide) (by decide)⟩

lemma except_bind_ok {ε α β : Type} (a : α) (f : α → Except ε β) :
    (Except.ok a >>= f : Except ε β) = f a := rfl

lemma except_bind_error {ε α β : Type} (e : ε) (f : α → Except ε β) :
    ((Except.error e : Except ε α) >>= f : Except ε β) = Except.error e := rfl

/-- While the loop index stays inside both aligned sequences, the
matching-column sum succeeds and counts the equal columns of the zipped
prefix. -/
lemma foldlM_matchStep_ok (s0 s1 : List Char) :
    ∀ n, n ≤ s0.length → n ≤ s1.length →
      (List.range n).foldlM (matchStep [s0, s1] s0) 0 =
        Except.ok (((s0.zip s1).take n).countP (fun p => decide (p.1 = p.2))) := by
  intro n
  induction n with
  | zero => intro _ _; rfl
  | succ n ih =>
    intro h0 h1
    have hn0 : n < s0.length := h0
    have hn1 : n < s1.length := h1
    obtain ⟨c, hc⟩ : ∃ c, s0[n]? = some c := ⟨s0[n], List.getElem?_eq_getElem hn0⟩
    obtain ⟨d, hd⟩ : ∃ d, s1[n]? = some d := ⟨s1[n], List.getElem?_eq_getElem hn1⟩
    rw [List.range_succ, List.foldlM_append,
      ih (Nat.le_of_lt hn0) (Nat.le_of_lt hn1), except_bind_ok,
      List.foldlM_cons]
    have hstep : matchStep [s0, s1] s0
        (((s0.zip s1).take n).countP (fun p => decide (p.1 = p.2))) n =
        Except.ok (((s0.zip s1).take n).countP (fun p => decide (p.1 = p.2)) +
          if c = d then 1 else 0) := by
      show (match s0[n]?, s1[n]? with
        | some c, some d =>
          Except.ok (((s0.zip s1).take n).countP (fun p => decide (p.1 = p.2)) +
            if c = d then 1 else 0)
        | _, _ => Except.error PyErr.indexError) =
        Except.ok (((s0.zip s1).take n).countP (fun p => decide (p.1 = p.2)) +
          if c = d then 1 else 0)
      rw [hc, hd]
    rw [hstep, except_bind_ok, List.foldlM_nil]
    have hzip : (s0.zip s1)[n]? = some (c, d) := by
      rw [List.getElem?_zip_eq_some]
      exact ⟨hc, hd⟩
    rw [List.take_succ, hzip, List.countP_append]
    simp only [List.countP_cons, Option.toList_some, List.countP_nil, decide_eq_true_eq,
      Nat.zero_add]
    rfl

/-- When the second aligned sequence is shorter than the number of loop
iterations, the matching-column sum raises IndexError at the first index past
the second sequence. -/
lemma foldlM_matchStep_err (s0 s1 : List Char) :
    ∀ n, n ≤ s0.length → s1.length < n →
      (List.range n).foldlM (matchStep [s0, s1] s0) 0 = Except.error PyErr.indexError := by
  intro n
  induction n with
  | zero => intro _ h; exact absurd h (Nat.not_lt_zero _)
  | succ n ih =>
    intro h0 h1
    rcases Nat.lt_or_ge s1.length n with hlt | hge
    · rw [List.range_succ, List.foldlM_append, ih (Nat.le_of_succ_le h0) hlt,
        except_bind_error]
    · have heq : s1.length = n := Nat.le_antisymm (Nat.lt_succ_iff.1 h1) hge
      have hn0 : n < s0.length := h0
      obtain ⟨c, hc⟩ : ∃ c, s0[n]? = some c := ⟨s0[n], List.getElem?_eq_getElem hn0⟩
      have hd : s1[n]? = none := by
        rw [List.getElem?_eq_none_iff]
        exact Nat.le_of_eq heq
      rw [List.range_succ, List.foldlM_append,
        foldlM_matchStep_ok s0 s1 n (Nat.le_of_lt hn0) (Nat.le_of_eq heq.symm),
        except_bind_ok, List.foldlM_cons]
      have hstep : matchStep [s0, s1] s0
          (((s0.zip s1).take n).countP (fun p => decide (p.1 = p.2))) n =
          Except.error PyErr.indexError := by
        show (match s0[n]?, s1[n]? with
          | some c, some d =>
            Except.ok (((s0.zip s1).take n).countP (fun p => decide (p.1 = p.2)) +
              if c = d then 1 else 0)
          | _, _ => Except.error PyErr.indexError) = Except.error PyErr.indexError
        rw [hc, hd]
      rw [hstep, except_bind_error]

/-- When the first aligned sequence is nonempty and not longer than the
second, get_identity succeeds and returns the rounded identity rate of the
columns up to the length of the first sequence. -/
lemma get_identity_ok (s1 s2 : List Char) (hle : s1.length ≤ s2.length)
    (hpos : 0 < s1.length) :
    get_identity [s1, s2] = Except.ok (pyRound2 (100 *
      ((((s1.zip s2).take s1.length).countP (fun p => decide (p.1 = p.2))) : ℚ) /
      (s1.length : ℚ))) := by
  show identityFrom [s1, s2] s1 = _
  unfold identityFrom
  rw [foldlM_matchStep_ok s1 s2 s1.length le_rfl hle]
  show (if s1.length = 0 then Except.error PyErr.zeroDivisionError
    else Except.ok (pyRound2 (100 *
      ((((s1.zip s2).take s1.length).countP (fun p => decide (p.1 = p.2))) : ℚ) /
      (s1.length : ℚ)))) = _
  rw [if_neg (Nat.pos_iff_ne_zero.1 hpos)]

/-- C3: for every pair of aligned sequences of equal positive length,
get_identity returns 100 times the number of column positions at which the
two sequences hold the same character, divided by the alignment length,
rounded to two decimal places; the column count is a naive character
equality, so a column holding two gap characters counts as identical and a
gap against a base counts as a mismatch. -/
theorem C3_get_identity_formula (s1 s2 : List Char) (hlen : s1.length = s2.length)
    (hpos : 0 < s1.length) :
    get_identity [s1, s2] = Except.ok (spec_identity s1 s2) := by
  rw [get_identity_ok s1 s2 (Nat.le_of_eq hlen) hpos]
  have htake : (s1.zip s2).take s1.length = s1.zip s2 := by
    apply List.take_of_length_le
    rw [List.length_zip, hlen, Nat.min_self]
  rw [htake]
  rfl

/-- Witness for C3 on a concrete aligned pair containing a gap-gap column:
three of the four columns match, including the column holding a gap in both
sequences, and the identity is 75. -/
theorem C3_get_identity_formula_witness :
    get_identity ["AC-G".toList, "AC-T".toList] =
      Except.ok (spec_identity "AC-G".toList "AC-T".toList) ∧
    spec_identity "AC-G".toList "AC-T".toList = 75 := by
  constructor
  · exact C3_get_identity_formula "AC-G".toList "AC-T".toList (by decide) (by decide)
  · unfold spec_identity
    rw [show ("AC-G".toList.zip "AC-T".toList).countP (fun p => decide (p.1 = p.2)) = 3
      from by decide]
    rw [show ("AC-G".toList).length = 4 from by decide]
    rw [pyRound2_eq_of_mul_eq _ 7500 (by norm_num)]
    norm_num

/-- Counterexample for C6: the two aligned strings have unequal lengths with
the first one shorter, yet get_identity silently returns the value 100
instead of failing with an error. -/
theorem C6_counterexample :
    ("A".toList).length ≠ ("AB".toList).length ∧
    get_identity ["A".toList, "AB".toList] = Except.ok 100 := by
  refine ⟨by decide, ?_⟩
  rw [get_identity_ok "A".toList "AB".toList (by decide) (by decide)]
  rw [show (("A".toList.zip "AB".toList).take ("A".toList.length)).countP
      (fun p => decide (p.1 = p.2)) = 1 from by decide]
  rw [show ("A".toList).length = 1 from by decide]
  rw [Nat.cast_one]
  rw [pyRound2_eq_of_mul_eq _ 10000 (by norm_num)]
  norm_num

/-- C6 amended: get_identity fails fast with an IndexError when the first
aligned string is strictly longer than the second; when the first is strictly
shorter (and nonempty), no error is raised and a value is silently returned,
computed over only the columns up to the length of the first string. -/
theorem C6_amended_length_mismatch (s1 s2 : List Char) :
    (s2.length < s1.length → get_identity [s1, s2] = Except.error PyErr.indexError) ∧
    (0 < s1.length → s1.length < s2.length →
      ∃ q, get_identity [s1, s2] = Except.ok q) := by
  constructor
  · intro h
    show identityFrom [s1, s2] s1 = _
    unfold identityFrom
    rw [foldlM_matchStep_err s1 s2 s1.length le_rfl h]
  · intro hpos hlt
    exact ⟨_, get_identity_ok s1 s2 (Nat.le_of_lt hlt) hpos⟩

/-- Witness for the amended C6 at concrete inputs: first longer raises
IndexError, first shorter silently returns a value. -/
theorem C6_amended_length_mismatch_witness :
    get_identity ["AB".toList, "A".toList] = Except.error PyErr.indexError ∧
    ∃ q, get_identity ["A".toList, "AB".toList] = Except.ok q :=
  ⟨(C6_amended_length_mismatch "AB".toList "A".toList).1 (by decide),
   (C6_amended_length_mismatch "A".toList "AB".toList).2 (by decide) (by decide)⟩

/-- C9: get_identity does not guard against an empty first aligned sequence:
whenever the first element of the alignment list is the empty string the
division by its length raises ZeroDivisionError, and consequently every
successful call has a nonempty first aligned sequence. -/
theorem C9_get_identity_empty_first :
    (∀ tail : List (List Char), get_identity ([] :: tail) =
      Except.error PyErr.zeroDivisionError) ∧
    (∀ (l : List (List Char)) (q : ℚ), get_identity l = Except.ok q →
      ∃ a0 rest, l = a0 :: rest ∧ 0 < a0.length) := by
  constructor
  · intro tail; rfl
  · intro l q h
    match l with
    | [] => exact absurd h (fun hc => Except.noConfusion hc)
    | a0 :: rest =>
      refine ⟨a0, rest, rfl, ?_⟩
      have h2 : identityFrom (a0 :: rest) a0 = Except.ok q := h
      unfold identityFrom at h2
      rcases hf : (List.range a0.length).foldlM (matchStep (a0 :: rest) a0) 0 with e | m
      · rw [hf] at h2
        exact absurd h2 (fun hc => Except.noConfusion hc)
      · rw [hf] at h2
        have h3 : (if a0.length = 0 then (Except.error PyErr.zeroDivisionError : Except PyErr ℚ)
            else Except.ok (pyRound2 (100 * (m : ℚ) / (a0.length : ℚ)))) = Except.ok q := h2
        by_cases hz : a0.length = 0
        · rw [if_pos hz] at h3
          exact absurd h3 (fun hc => Except.noConfusion hc)
        · exact Nat.pos_of_ne_zero hz

/-- Witness for C9: the empty first sequence raises ZeroDivisionError, and a
successful concrete call has a nonempty first sequence. -/
theorem C9_get_identity_empty_first_witness :
    get_identity ([] :: ["AB".toList]) = Except.error PyErr.zeroDivisionError ∧
    ∃ a0 rest, ([['A'], ['A']] : List (List Char)) = a0 :: rest ∧ 0 < a0.length :=
  ⟨C9_get_identity_empty_first.1 ["AB".toList],
   C9_get_identity_empty_first.2 [['A'], ['A']] _ rfl⟩

instance : IsTotal (List Char) (fun a b => b ≤ a) := ⟨fun a b => le_total b a⟩

instance : IsTrans (List Char) (fun a b => b ≤ a) := ⟨fun _ _ _ h1 h2 => le_trans h2 h1⟩

/-- Every Counter key comes from the counted list. -/
lemma mem_counterKeys : ∀ {l : List (List Char)} {t}, t ∈ counterKeys l → t ∈ l := by
  intro l
  induction l with
  | nil => intro t h; exact absurd h (List.not_mem_nil t)
  | cons s rest ih =>
    intro t h
    rw [counterKeys] at h
    rcases List.mem_cons.1 h with rfl | h
    · exact List.mem_cons_self t rest
    · exact List.mem_cons_of_mem s (ih (List.mem_of_mem_filter h))

/-- The Counter keys of a descending-sorted list are strictly descending. -/
lemma counterKeys_pairwise : ∀ {l : List (List Char)},
    l.Pairwise (fun a b => b ≤ a) →
    (counterKeys l).Pairwise (fun a b => b < a) := by
  intro l
  induction l with
  | nil => intro _; exact List.Pairwise.nil
  | cons s rest ih =>
    intro h
    rw [List.pairwise_cons] at h
    rw [counterKeys, List.pairwise_cons]
    constructor
    · intro t ht
      have ht' := List.mem_filter.1 ht
      have hmem : t ∈ rest := mem_counterKeys ht'.1
      have hne : t ≠ s := by simpa using ht'.2
      exact lt_of_le_of_ne (h.1 t hmem) hne
    · exact List.Pairwise.filter _ (ih h.2)

/-- Inserting an item whose key strictly dominates every key of an already
descending list, at the position given by its count, keeps the list sorted by
descending count with ties in descending key order. -/
lemma orderedInsert_R (x : List Char × Nat) :
    ∀ (l : List (List Char × Nat)),
      l.Pairwise (fun a b => b.2 < a.2 ∨ (a.2 = b.2 ∧ b.1 < a.1)) →
      (∀ y ∈ l, y.1 < x.1) →
      (List.orderedInsert (fun a b => b.2 ≤ a.2) x l).Pairwise
        (fun a b => b.2 < a.2 ∨ (a.2 = b.2 ∧ b.1 < a.1)) := by
  intro l
  induction l with
  | nil => intro _ _; simp [List.orderedInsert]
  | cons y ys ih =>
    intro hp hx
    rw [List.pairwise_cons] at hp
    rw [List.orderedInsert]
    by_cases hr : y.2 ≤ x.2
    · rw [if_pos hr, List.pairwise_cons]
      refine ⟨?_, List.pairwise_cons.2 hp⟩
      intro z hz
      rcases List.mem_cons.1 hz with rfl | hz
      · rcases Nat.lt_or_ge z.2 x.2 with hlt | hge
        · exact Or.inl hlt
        · exact Or.inr ⟨Nat.le_antisymm hge hr, hx z (List.mem_cons_self z ys)⟩
      · rcases hp.1 z hz with hlt | ⟨heq, _⟩
        · exact Or.inl (lt_of_lt_of_le hlt hr)
        · rcases Nat.lt_or_ge z.2 x.2 with hlt2 | hge2
          · exact Or.inl hlt2
          · refine Or.inr ⟨Nat.le_antisymm hge2 (heq ▸ hr), hx z (List.mem_cons_of_mem y hz)⟩
    · rw [if_neg hr, List.pairwise_cons]
      constructor
      · intro z hz
        rcases (List.mem_orderedInsert _).1 hz with rfl | hz
        · exact Or.inl (Nat.lt_of_not_le hr)
        · exact hp.1 z hz
      · exact ih hp.2 (fun y2 hy2 => hx y2 (List.mem_cons_of_mem y hy2))

/-- Stably sorting by descending count a list whose keys strictly descend
yields a list sorted by descending count with ties in descending key order. -/
lemma insertionSort_R : ∀ (l : List (List Char × Nat)),
    l.Pairwise (fun a b => b.1 < a.1) →
    (List.insertionSort (fun a b => b.2 ≤ a.2) l).Pairwise
      (fun a b => b.2 < a.2 ∨ (a.2 = b.2 ∧ b.1 < a.1)) := by
  intro l
  induction l with
  | nil => intro _; exact List.Pairwise.nil
  | cons x xs ih =>
    intro hp
    rw [List.pairwise_cons] at hp
    rw [List.insertionSort]
    apply orderedInsert_R
    · exact ih hp.2
    · intro y hy
      exact hp.1 y ((List.mem_insertionSort _).1 hy)

/-- The Counter items of a descending-sorted list have strictly descending
keys. -/
lemma counterItems_pairwise (l : List (List Char))
    (h : l.Pairwise (fun a b => b ≤ a)) :
    (counterItems l).Pairwise (fun a b : List Char × Nat => b.1 < a.1) := by
  unfold counterItems
  rw [List.pairwise_map]
  exact counterKeys_pairwise h

/-- The most_common list is sorted by strictly descending count with ties in
strictly descending sequence order. -/
lemma derep_most_common_pairwise (lines : List (List Char)) (minseqlen : Nat) :
    (derep_most_common lines minseqlen).Pairwise
      (fun a b => b.2 < a.2 ∨ (a.2 = b.2 ∧ b.1 < a.1)) := by
  unfold derep_most_common
  apply insertionSort_R
  apply counterItems_pairwise
  exact List.sorted_insertionSort _ _

/-- The sequences of the most_common list are pairwise distinct. -/
lemma derep_most_common_keys_nodup (lines : List (List Char)) (minseqlen : Nat) :
    ((derep_most_common lines minseqlen).map Prod.fst).Nodup := by
  unfold derep_most_common
  have hsorted : (List.insertionSort (fun a b : List Char => b ≤ a)
      (read_fasta lines minseqlen)).Pairwise (fun a b => b ≤ a) :=
    List.sorted_insertionSort _ _
  have hpairfst : ∀ (f : List Char → Nat) (l : List (List Char)),
      (l.map (fun s => (s, f s))).map Prod.fst = l := by
    intro f l
    induction l with
    | nil => rfl
    | cons s rest ih => simp only [List.map_cons, ih]
  have hkeys : (counterItems (List.insertionSort (fun a b : List Char => b ≤ a)
      (read_fasta lines minseqlen))).map Prod.fst =
      counterKeys (List.insertionSort (fun a b : List Char => b ≤ a)
        (read_fasta lines minseqlen)) := by
    unfold counterItems
    exact hpairfst _ _
  have hnodup : ((counterItems (List.insertionSort (fun a b : List Char => b ≤ a)
      (read_fasta lines minseqlen))).map Prod.fst).Nodup := by
    rw [hkeys]
    exact (counterKeys_pairwise hsorted).imp (fun h => ne_of_gt h)
  exact ((List.perm_insertionSort _ _).map Prod.fst).symm.nodup hnodup

/-- C2: the output of dereplication_fulllength contains each distinct
sequence at most once; the emitted counts are strictly organized: along the
emitted order counts never increase, and two adjacent entries of equal count
appear in strictly descending sequence order (reverse lexicographic
tie-break); and an item of the most_common list is emitted exactly when its
count reaches mincount, so a count equal to mincount is retained and a count
below it is dropped. -/
theorem C2_dereplication_invariants (lines : List (List Char)) (minseqlen mincount : Nat) :
    ((dereplication_fulllength lines minseqlen mincount).map Prod.fst).Nodup ∧
    (dereplication_fulllength lines minseqlen mincount).Pairwise
      (fun a b => b.2 < a.2 ∨ (a.2 = b.2 ∧ b.1 < a.1)) ∧
    (∀ p ∈ derep_most_common lines minseqlen,
      (p ∈ dereplication_fulllength lines minseqlen mincount ↔ mincount ≤ p.2)) := by
  refine ⟨?_, ?_, ?_⟩
  · exact List.Nodup.sublist ((List.filter_sublist _).map Prod.fst)
      (derep_most_common_keys_nodup lines minseqlen)
  · exact List.Pairwise.filter _ (derep_most_common_pairwise lines minseqlen)
  · intro p hp
    unfold dereplication_fulllength
    simp [List.mem_filter, hp]

/-- Witness for C2 on a concrete stream: with mincount two, the count-two
item is retained (count equal to the threshold) and the count-one item is
dropped (count one below the threshold). -/
theorem C2_dereplication_invariants_witness :
    (("TTTT".toList, 1) ∈ dereplication_fulllength linesABT 4 2 ↔ 2 ≤ 1) ∧
    (("AAAA".toList, 2) ∈ dereplication_fulllength linesABT 4 2 ↔ 2 ≤ 2) :=
  ⟨(C2_dereplication_invariants linesABT 4 2).2.2 ("TTTT".toList, 1) (by decide),
   (C2_dereplication_invariants linesABT 4 2).2.2 ("AAAA".toList, 2) (by decide)⟩

/-- Identity of AAAA aligned against itself under the as-is alignment stub. -/
lemma identityWith_AAAA_AAAA :
    identityWith alignAsIs "AAAA".toList "AAAA".toList = Except.ok 100 := by
  show get_identity ["AAAA".toList, "AAAA".toList] = _
  rw [get_identity_ok "AAAA".toList "AAAA".toList (by decide) (by decide)]
  rw [show (("AAAA".toList.zip "AAAA".toList).take ("AAAA".toList.length)).countP
      (fun p => decide (p.1 = p.2)) = 4 from by decide]
  rw [show ("AAAA".toList).length = 4 from by decide, Nat.cast_ofNat]
  rw [pyRound2_eq_of_mul_eq _ 10000 (by norm_num)]
  norm_num

/-- Identity of TTTT aligned against AAAA under the as-is alignment stub. -/
lemma identityWith_TTTT_AAAA :
    identityWith alignAsIs "TTTT".toList "AAAA".toList = Except.ok 0 := by
  show get_identity ["TTTT".toList, "AAAA".toList] = _
  rw [get_identity_ok "TTTT".toList "AAAA".toList (by decide) (by decide)]
  rw [show (("TTTT".toList.zip "AAAA".toList).take ("TTTT".toList.length)).countP
      (fun p => decide (p.1 = p.2)) = 0 from by decide]
  rw [show ("TTTT".toList).length = 4 from by decide, Nat.cast_zero]
  rw [pyRound2_eq_of_mul_eq _ 0 (by norm_num)]
  norm_num

/-- When every accepted OTU has identity strictly below 97 with the
candidate, the scan reports the candidate as unique. -/
lemma scanOTUs_of_all_below (align : List Char → List Char → List Char × List Char)
    (rseq : List Char) :
    ∀ (otus : List (List Char × Nat)),
      (∀ p ∈ otus, ∃ q, identityWith align rseq p.1 = Except.ok q ∧ q < 97) →
      scanOTUs align rseq otus = Except.ok true := by
  intro otus
  induction otus with
  | nil => intro _; rfl
  | cons j rest ih =>
    intro h
    obtain ⟨q, hq, hlt⟩ := h j (List.mem_cons_self j rest)
    show (match identityWith align rseq j.1 with
      | Except.error e => Except.error e
      | Except.ok identity =>
        if (97 : ℚ) ≤ identity then Except.ok false
        else scanOTUs align rseq rest) = Except.ok true
    rw [hq]
    show (if (97 : ℚ) ≤ q then Except.ok false else scanOTUs align rseq rest) = Except.ok true
    rw [if_neg (not_le.2 hlt)]
    exact ih (fun p hp => h p (List.mem_cons_of_mem j hp))

/-- The scan stops at the first accepted OTU whose identity reaches 97: once
every OTU before it is strictly below 97 and it reaches 97, the candidate is
reported as non-unique, whatever comes after it in the list. -/
lemma scanOTUs_first_match (align : List Char → List Char → List Char × List Char)
    (rseq : List Char) :
    ∀ (pre : List (List Char × Nat)) (o : List Char × Nat) (post : List (List Char × Nat)),
      (∀ p ∈ pre, ∃ q, identityWith align rseq p.1 = Except.ok q ∧ q < 97) →
      (∃ q, identityWith align rseq o.1 = Except.ok q ∧ 97 ≤ q) →
      scanOTUs align rseq (pre ++ o :: post) = Except.ok false := by
  intro pre
  induction pre with
  | nil =>
    intro o post _ ho
    obtain ⟨q, hq, hge⟩ := ho
    show (match identityWith align rseq o.1 with
      | Except.error e => Except.error e
      | Except.ok identity =>
        if (97 : ℚ) ≤ identity then Except.ok false
        else scanOTUs align rseq post) = Except.ok false
    rw [hq]
    show (if (97 : ℚ) ≤ q then Except.ok false else scanOTUs align rseq post) = Except.ok false
    rw [if_pos hge]
  | cons j pre ih =>
    intro o post hpre ho
    obtain ⟨q, hq, hlt⟩ := hpre j (List.mem_cons_self j pre)
    show (match identityWith align rseq j.1 with
      | Except.error e => Except.error e
      | Except.ok identity =>
        if (97 : ℚ) ≤ identity then Except.ok false
        else scanOTUs align rseq (pre ++ o :: post)) = Except.ok false
    rw [hq]
    show (if (97 : ℚ) ≤ q then Except.ok false
      else scanOTUs align rseq (pre ++ o :: post)) = Except.ok false
    rw [if_neg (not_le.2 hlt)]
    exact ih o post (fun p hp => hpre p (List.mem_cons_of_mem j hp)) ho

/-- C1: a dereplicated record is discarded exactly when some previously
accepted OTU, scanned in acceptance order, reaches identity 97 with it, and
the scan stops at the first such OTU: the OTUs after the first match are
never constrained, so the first match wins; when every accepted OTU stays
strictly below 97, the record is appended unchanged, with its own count, at
the end of the OTU list. -/
theorem C1_greedy_first_match (align : List Char → List Char → List Char × List Char)
    (list_OTU : List (List Char × Nat)) (r : List Char × Nat) :
    (∀ pre o post, list_OTU = pre ++ o :: post →
      (∀ p ∈ pre, ∃ q, identityWith align r.1 p.1 = Except.ok q ∧ q < 97) →
      (∃ q, identityWith align r.1 o.1 = Except.ok q ∧ 97 ≤ q) →
      processRecord align list_OTU r = Except.ok list_OTU) ∧
    ((∀ p ∈ list_OTU, ∃ q, identityWith align r.1 p.1 = Except.ok q ∧ q < 97) →
      processRecord align list_OTU r = Except.ok (list_OTU ++ [r])) := by
  constructor
  · intro pre o post heq hpre ho
    unfold processRecord
    rw [heq, scanOTUs_first_match align r.1 pre o post hpre ho]
    rfl
  · intro h
    unfold processRecord
    rw [scanOTUs_of_all_below align r.1 list_OTU h]
    rfl

/-- Witness for C1: against the single accepted OTU AAAA, the record AAAA
(identity 100) is discarded, while the record TTTT (identity 0) is appended
unchanged at the end with its own count. -/
theorem C1_greedy_first_match_witness :
    processRecord alignAsIs [("AAAA".toList, 3)] ("AAAA".toList, 2) =
      Except.ok [("AAAA".toList, 3)] ∧
    processRecord alignAsIs [("AAAA".toList, 3)] ("TTTT".toList, 2) =
      Except.ok [("AAAA".toList, 3), ("TTTT".toList, 2)] := by
  constructor
  · exact (C1_greedy_first_match alignAsIs [("AAAA".toList, 3)] ("AAAA".toList, 2)).1
      [] ("AAAA".toList, 3) [] rfl (fun p hp => absurd hp (List.not_mem_nil p))
      ⟨100, identityWith_AAAA_AAAA, by norm_num⟩
  · apply (C1_greedy_first_match alignAsIs [("AAAA".toList, 3)] ("TTTT".toList, 2)).2
    intro p hp
    rw [List.mem_singleton] at hp
    subst hp
    exact ⟨0, identityWith_TTTT_AAAA, by norm_num⟩

/-- Folding the clustering step only ever appends to the OTU list, so a
successful fold preserves the head of a nonempty starting list. -/
lemma foldlM_processRecord_head (align : List Char → List Char → List Char × List Char) :
    ∀ (rest : List (List Char × Nat)) (acc out : List (List Char × Nat)),
      acc ≠ [] → List.foldlM (processRecord align) acc rest = Except.ok out →
      out.head? = acc.head? := by
  intro rest
  induction rest with
  | nil =>
    intro acc out _ h
    rw [List.foldlM_nil] at h
    rw [← Except.ok.inj h]
  | cons x rest ih =>
    intro acc out hne h
    rw [List.foldlM_cons] at h
    rcases hscan : scanOTUs align x.1 acc with e | u
    · have hpr : processRecord align acc x = Except.error e := by
        unfold processRecord
        rw [hscan]
      rw [hpr, except_bind_error] at h
      exact absurd h (fun hc => Except.noConfusion hc)
    · have hpr : processRecord align acc x =
          Except.ok (if u then acc ++ [x] else acc) := by
        unfold processRecord
        rw [hscan]
      rw [hpr, except_bind_ok] at h
      have hne2 : (if u then acc ++ [x] else acc) ≠ [] := by
        cases u with
        | false => simpa using hne
        | true => simp
      rw [ih _ out hne2 h]
      cases u with
      | false => simp
      | true =>
        obtain ⟨a, as, rfl⟩ : ∃ a as, acc = a :: as := by
          cases acc with
          | nil => exact absurd rfl hne
          | cons a as => exact ⟨a, as, rfl⟩
        rfl

/-- C4: for every nonempty dereplicated stream, the first dereplicated
record seeds the OTU list and is never discarded: whenever the clustering
returns an OTU list, that record is its first element. -/
theorem C4_first_record_seeds (align : List Char → List Char → List Char × List Char)
    (lines : List (List Char)) (minseqlen mincount chunk_size kmer_size : Nat)
    (r : List Char × Nat) (rest otus : List (List Char × Nat))
    (hder : dereplication_fulllength lines minseqlen mincount = r :: rest)
    (hok : abundance_greedy_clustering align lines minseqlen mincount chunk_size kmer_size =
      Except.ok otus) :
    otus.head? = some r := by
  unfold abundance_greedy_clustering at hok
  rw [hder] at hok
  have hok2 : List.foldlM (processRecord align) [r] rest = Except.ok otus := hok
  rw [foldlM_processRecord_head align rest [r] otus (by simp) hok2]
  rfl

/-- Witness for C4: on a concrete stream whose dereplication starts with the
record of sequence AAAA and count two, the clustering succeeds and that
record is the first OTU of the result. -/
theorem C4_first_record_seeds_witness :
    abundance_greedy_clustering alignAsIs linesABT 4 1 50 22 =
      Except.ok [("AAAA".toList, 2), ("TTTT".toList, 1)] ∧
    ([("AAAA".toList, 2), ("TTTT".toList, 1)] : List (List Char × Nat)).head? =
      some ("AAAA".toList, 2) := by
  have hder : dereplication_fulllength linesABT 4 1 =
      [("AAAA".toList, 2), ("TTTT".toList, 1)] := by decide
  have hpr : processRecord alignAsIs [("AAAA".toList, 2)] ("TTTT".toList, 1) =
      Except.ok [("AAAA".toList, 2), ("TTTT".toList, 1)] := by
    unfold processRecord
    rw [scanOTUs_of_all_below alignAsIs "TTTT".toList [("AAAA".toList, 2)] ?_]
    · rfl
    · intro p hp
      rw [List.mem_singleton] at hp
      subst hp
      exact ⟨0, identityWith_TTTT_AAAA, by norm_num⟩
  have hagc : abundance_greedy_clustering alignAsIs linesABT 4 1 50 22 =
      Except.ok [("AAAA".toList, 2), ("TTTT".toList, 1)] := by
    unfold abundance_greedy_clustering
    rw [hder]
    show List.foldlM (processRecord alignAsIs) [("AAAA".toList, 2)] [("TTTT".toList, 1)] = _
    rw [List.foldlM_cons, hpr, except_bind_ok, List.foldlM_nil]
    rfl
  exact ⟨hagc,
    C4_first_record_seeds alignAsIs linesABT 4 1 50 22 ("AAAA".toList, 2)
      [("TTTT".toList, 1)] [("AAAA".toList, 2), ("TTTT".toList, 1)] hder hagc⟩

/-- C5: on an input where no dereplicated record survives the thresholds
(an empty stream with the default thresholds), the call to next on the empty
dereplicated generator raises a bare StopIteration instead of surfacing a
named no-sequences-found error. -/
theorem C5_empty_stream_stopiteration :
    abundance_greedy_clustering alignAsIs [] 400 10 50 22 =
      Except.error PyErr.stopIteration := by decide

/-- C8: the chunk_size and kmer_size parameters of
abundance_greedy_clustering have no behavioral effect: for every alignment
primitive, input and thresholds, any two choices of the two parameters give
exactly the same result. -/
theorem C8_chunk_kmer_no_effect (align : List Char → List Char → List Char × List Char)
    (lines : List (List Char)) (minseqlen mincount cs1 ks1 cs2 ks2 : Nat) :
    abundance_greedy_clustering align lines minseqlen mincount cs1 ks1 =
      abundance_greedy_clustering align lines minseqlen mincount cs2 ks2 := rfl
